import Mathlib

/-!
Shallow embedding of the `filecache` Go package (github.com/0xc000022070/filecache).

The package is a process-local cache: an in-memory map from string keys to
`*item` values, backed by files under `os.TempDir()/fc-namespaces/<namespace>/`.
We model:

* bytes as `List Nat`,
* `time.Time` instants as `Nat` (nanoseconds since some epoch) and
  `time.Duration` as `Int` (`time.Since(t)` is `now - t`),
* the Go map `map[string]*item` as an association list `List (String × item)`
  (Go maps have unique keys; our insert replaces in place),
* the filesystem as an association list from path strings to entries
  (regular file with content and modification time, or directory),
* each operation as a pure function threading the cache/filesystem state and
  taking the current wall-clock time `now` as an explicit argument where the
  source calls `time.Now()` / `time.Since`.

Source files: `filecache.go` (FileCache and its methods), the `item` file
(`item`, `getCacheItem`, `setCacheItem`, `deleteCacheItem`), `options.go`
(option setters, not needed beyond configuration fields).
-/

set_option autoImplicit false

deriving instance DecidableEq for Except

/-- Byte strings (`[]byte` in Go); only the length and identity of the bytes
matter to the cache, so bytes are just `Nat`s. -/
abbrev Bytes := List Nat

/-- The `item` struct from the source: `content []byte`, `AccesedAt time.Time`,
`ModifiedAt time.Time` (field spelling as in the source). The per-item mutex
only serialises `Access`/`Duration` and has no sequential content. -/
structure item where
  content : Bytes
  AccesedAt : Nat
  ModifiedAt : Nat
deriving DecidableEq

/-- `(*item).Access`: stamps `AccesedAt = time.Now()` and returns the held
content. The source mutates the item through its pointer; we return both the
content and the updated item. -/
def item.Access (i : item) (now : Nat) : Bytes × item :=
  (i.content, { i with AccesedAt := now })

/-- `(*item).Duration`: `time.Since(i.ModifiedAt)`, the elapsed time since the
last write, as a signed duration. -/
def item.Duration (i : item) (now : Nat) : Int :=
  (now : Int) - (i.ModifiedAt : Int)

/-- The error values of the package: `ErrNotFound`, `ErrIsDirectory`,
`ErrTooLarge`, `ErrInvalidKey`, plus pass-through filesystem errors from
`os.WriteFile` and `os.Remove` (represented abstractly). -/
inductive CacheErr where
  | notFound
  | isDirectory
  | tooLarge
  | invalidKey
  | writeFailed
  | removeFailed
deriving DecidableEq

/-- A filesystem entry: a regular file with content and modification time, or
a directory. -/
inductive FsEntry where
  | file (content : Bytes) (modTime : Nat)
  | dir
deriving DecidableEq

/-- The filesystem: a finite map from absolute path strings to entries,
as an association list. -/
abbrev FS := List (String × FsEntry)

/-- Association-list lookup (`m[k]` on a Go map). -/
def lookupAL {α : Type} : List (String × α) → String → Option α
  | [], _ => none
  | (k1, v1) :: rest, k => if k1 = k then some v1 else lookupAL rest k

/-- Association-list insert-or-replace (`m[k] = v` on a Go map): replaces the
binding in place if the key is present, else appends. -/
def insertAL {α : Type} : List (String × α) → String → α → List (String × α)
  | [], k, v => [(k, v)]
  | (k1, v1) :: rest, k, v =>
    if k1 = k then (k, v) :: rest else (k1, v1) :: insertAL rest k v

/-- Association-list erase (`delete(m, k)` on a Go map). -/
def eraseAL {α : Type} : List (String × α) → String → List (String × α)
  | [], _ => []
  | (k1, v1) :: rest, k =>
    if k1 = k then rest else (k1, v1) :: eraseAL rest k

/-- String prefix test, evaluated on the character lists. -/
def strHasPre (p s : String) : Bool :=
  List.isPrefixOf p.toList s.toList

/-- Whether path `q` is `d` itself or a lexical ancestor directory of `d`
(`q ++ "/"` is a prefix of `d`). Used to decide `os.MkdirAll` conflicts. -/
def isAncestorOf (q d : String) : Bool :=
  q = d || strHasPre (q ++ "/") d

/-- Characters of `cs` strictly before the last slash, or `none` when `cs`
holds no slash. -/
def beforeLastSlash : List Char → Option (List Char)
  | [] => none
  | c :: rest =>
    match beforeLastSlash rest with
    | some tail => some (c :: tail)
    | none => if c = '/' then some [] else none

/-- `filepath.Dir`: the path up to (excluding) the last separator, `"."` when
there is none. (We do not model `Clean`'s `..`-folding; no claim needs it.) -/
def parentDir (p : String) : String :=
  match beforeLastSlash p.toList with
  | some cs => String.mk cs
  | none => "."

/-- `os.MkdirAll dir` succeeds iff no existing regular file sits at `dir` or
at an ancestor of `dir`. -/
def mkdirAllOk (fs : FS) (d : String) : Bool :=
  fs.all fun pe =>
    match pe.2 with
    | .file _ _ => !(isAncestorOf pe.1 d)
    | .dir => true

/-- `os.MkdirAll`: on success the directory exists afterwards (`none` models
the error return). Ancestor directories are left implicit. -/
def mkdirAll (fs : FS) (d : String) : Option FS :=
  if mkdirAllOk fs d then
    some (match lookupAL fs d with
      | some _ => fs
      | none => insertAL fs d .dir)
  else none

/-- `os.WriteFile path content`: fails if a directory sits at `path`,
otherwise creates or truncates the file and stamps its modification time. -/
def writeFile (fs : FS) (p : String) (c : Bytes) (now : Nat) : Option FS :=
  match lookupAL fs p with
  | some .dir => none
  | _ => some (insertAL fs p (.file c now))

/-- `os.Remove path`: fails (`none`) when nothing sits at `path`, otherwise
removes the entry. -/
def removeFile (fs : FS) (p : String) : Option FS :=
  match lookupAL fs p with
  | none => none
  | some _ => some (eraseAL fs p)

/-- `getCacheItem path maxSize` from the source: `os.Stat`, then in order
`ErrNotFound` when the path is absent, `ErrIsDirectory` when it is a
directory, `ErrTooLarge` when `info.Size() > maxSize`; otherwise reads the
file and builds an item with `ModifiedAt = info.ModTime()` (and the zero
`AccesedAt`). -/
def getCacheItem (fs : FS) (path : String) (maxSize : Int) : Except CacheErr item :=
  match lookupAL fs path with
  | none => .error .notFound
  | some .dir => .error .isDirectory
  | some (.file c mt) =>
    if (c.length : Int) > maxSize then .error .tooLarge
    else .ok { content := c, AccesedAt := 0, ModifiedAt := mt }

/-- `setCacheItem path content maxSize` from the source: `ErrTooLarge` when
`len(content) > maxSize` (checked before any I/O); `ErrInvalidKey` when
`os.MkdirAll(filepath.Dir(path))` fails; otherwise writes the file and stamps
`ModifiedAt = time.Now()`. The returned filesystem reflects partial effects
(a directory created before a failed write stays). -/
def setCacheItem (fs : FS) (path : String) (content : Bytes) (maxSize : Int)
    (now : Nat) : Except CacheErr item × FS :=
  if (content.length : Int) > maxSize then (.error .tooLarge, fs)
  else
    match mkdirAll fs (parentDir path) with
    | none => (.error .invalidKey, fs)
    | some fs1 =>
      match writeFile fs1 path content now with
      | none => (.error .writeFailed, fs1)
      | some fs2 => (.ok { content := content, AccesedAt := 0, ModifiedAt := now }, fs2)

/-- `deleteCacheItem path` from the source: `os.Remove(path)`. -/
def deleteCacheItem (fs : FS) (path : String) : Option FS :=
  removeFile fs path

/-- Binary `filepath.Join` (without `Clean`'s `..`-folding, which no claim
depends on): empty components vanish, otherwise the parts are separated by
`/`. -/
def goJoin2 (a b : String) : String :=
  if a = "" then b else if b = "" then a else a ++ "/" ++ b

/-- Variadic `filepath.Join(parts...)`: the fold of the binary join. The spec
phrase `join(system_temp_dir, "fc-namespaces", namespace, key)` denotes
`joinPath [system_temp_dir, "fc-namespaces", namespace, key]`. -/
def joinPath (parts : List String) : String :=
  parts.foldl goJoin2 ""

/-- The `FileCache` struct. `ns` is the `namespace` field (a Lean keyword),
`tempDir` the ambient `os.TempDir()`, `fs` the ambient filesystem state the
methods act on. The `pipe` and `shutdown` channels are modelled by their
closed-flags (that is all `Shutdown` observes); `wg`, `pipeSize` and
`maxItems` have no sequential effect in the source (`removeOldest` is never
called) and are omitted. -/
structure FileCache where
  ns : String
  tempDir : String
  keyItem : List (String × item)
  fs : FS
  pipeClosed : Bool
  shutdownClosed : Bool
  closed : Bool
  maxSize : Int
  ttl : Int
  checkInterval : Int
deriving DecidableEq

/-- `New(namespace, ...)` after the options ran: empty in-memory map, both
channels open, `closed = false`. The configuration and the ambient filesystem
and temp directory are passed explicitly. -/
def New (ns tempDir : String) (fs : FS) (maxSize ttl checkInterval : Int) : FileCache :=
  { ns := ns, tempDir := tempDir, keyItem := [], fs := fs,
    pipeClosed := false, shutdownClosed := false, closed := false,
    maxSize := maxSize, ttl := ttl, checkInterval := checkInterval }

/-- `getNamespaceDir`: `filepath.Join(os.TempDir(), "fc-namespaces", fc.namespace)`
(variadic join = nested binary joins). -/
def FileCache.getNamespaceDir (fc : FileCache) : String :=
  goJoin2 (goJoin2 fc.tempDir "fc-namespaces") fc.ns

/-- `keyToPath`: `filepath.Join(fc.getNamespaceDir(), key)`. -/
def FileCache.keyToPath (fc : FileCache) (key : String) : String :=
  goJoin2 fc.getNamespaceDir key

/-- `getItem`: under `fc.mu`, return the resident item when the key is in the
map; otherwise load through `getCacheItem` and, on success, insert the loaded
item into the map. -/
def FileCache.getItem (fc : FileCache) (key : String) :
    Except CacheErr item × FileCache :=
  match lookupAL fc.keyItem key with
  | some it => (.ok it, fc)
  | none =>
    match getCacheItem fc.fs (fc.keyToPath key) fc.maxSize with
    | .error e => (.error e, fc)
    | .ok it => (.ok it, { fc with keyItem := insertAL fc.keyItem key it })

/-- Stamping `AccesedAt` through the item pointer held by the map: the map
entry for `key` gets `AccesedAt = now`, every other entry is untouched. -/
def touchAccess : List (String × item) → String → Nat → List (String × item)
  | [], _, _ => []
  | (k1, it) :: rest, key, now =>
    if k1 = key then (k1, { it with AccesedAt := now }) :: touchAccess rest key now
    else (k1, it) :: touchAccess rest key now

/-- `Get`: `getItem` then `item.Access()` — returns the content and stamps the
shared item's access time. -/
def FileCache.Get (fc : FileCache) (key : String) (now : Nat) :
    Except CacheErr Bytes × FileCache :=
  match fc.getItem key with
  | (.error e, fc1) => (.error e, fc1)
  | (.ok it, fc1) =>
    (.ok (it.Access now).1, { fc1 with keyItem := touchAccess fc1.keyItem key now })

/-- `Exists`: `getItem` succeeded — including its load-through side effect. -/
def FileCache.Exists (fc : FileCache) (key : String) : Bool × FileCache :=
  match fc.getItem key with
  | (.ok _, fc1) => (true, fc1)
  | (.error _, fc1) => (false, fc1)

/-- `Set`: `setCacheItem` on the resolved path, then (only on success) insert
the fresh item into the map under `fc.mu`. -/
def FileCache.Set (fc : FileCache) (key : String) (content : Bytes) (now : Nat) :
    Except CacheErr Unit × FileCache :=
  match setCacheItem fc.fs (fc.keyToPath key) content fc.maxSize now with
  | (.error e, fs1) => (.error e, { fc with fs := fs1 })
  | (.ok it, fs1) =>
    (.ok (), { fc with fs := fs1, keyItem := insertAL fc.keyItem key it })

/-- `Delete`: remove the map entry under `fc.mu`, then `deleteCacheItem` on
the resolved path, whose error is returned. (The map delete precedes the file
removal; as the file removal never reads the map, the two effects are stated
together per branch.) -/
def FileCache.Delete (fc : FileCache) (key : String) :
    Except CacheErr Unit × FileCache :=
  match deleteCacheItem fc.fs (fc.keyToPath key) with
  | some fs2 => (.ok (), { fc with keyItem := eraseAL fc.keyItem key, fs := fs2 })
  | none => (.error .removeFailed, { fc with keyItem := eraseAL fc.keyItem key })

/-- `SizeInMemory`: `len(fc.keyItem)`. -/
def FileCache.SizeInMemory (fc : FileCache) : Nat :=
  fc.keyItem.length

/-- A Go runtime panic observable in this model. -/
inductive GoPanic where
  | closeOfClosedChannel
deriving DecidableEq

/-- `Shutdown`: `close(fc.pipe)`, then `close(fc.shutdown)` — each panics when
the channel is already closed — then clears the map (`fc.keyItem = nil`,
modelled as the empty list) and waits for the vacuum goroutine. The source
never sets `fc.closed`. -/
def FileCache.Shutdown (fc : FileCache) : Except GoPanic FileCache :=
  if fc.pipeClosed then .error .closeOfClosedChannel
  else if fc.shutdownClosed then .error .closeOfClosedChannel
  else .ok { fc with pipeClosed := true, shutdownClosed := true, keyItem := [] }

/-- `removeItem key onlyMemory`: `getItem` first (a miss leaves everything
alone); on success delete the map entry and, unless `onlyMemory`, remove the
backing file, ignoring its error. -/
def FileCache.removeItem (fc : FileCache) (key : String) (onlyMemory : Bool) :
    FileCache :=
  match fc.getItem key with
  | (.error _, fc1) => fc1
  | (.ok _, fc1) =>
    if onlyMemory then { fc1 with keyItem := eraseAL fc1.keyItem key }
    else
      match deleteCacheItem fc1.fs (fc1.keyToPath key) with
      | some fs2 => { fc1 with keyItem := eraseAL fc1.keyItem key, fs := fs2 }
      | none => { fc1 with keyItem := eraseAL fc1.keyItem key }

/-- One pass of the vacuum tick body over a snapshot of the map entries:
`for key, item := range fc.keyItem { if item.Duration() > fc.ttl { fc.removeItem(key, false) } }`
(`d > fc.ttl` written as `fc.ttl < d`). -/
def sweepVisit (now : Nat) : FileCache → List (String × item) → FileCache
  | fc, [] => fc
  | fc, kv :: rest =>
    sweepVisit now
      (if fc.ttl < kv.2.Duration now then fc.removeItem kv.1 false else fc) rest

/-- One vacuum tick: sweep the entries resident when the tick fires. -/
def FileCache.sweepOnce (fc : FileCache) (now : Nat) : FileCache :=
  sweepVisit now fc fc.keyItem

/-- The `vacuum` goroutine, sequentialised: `if fc.checkInterval < 1 { return }`
guards the whole loop, so a non-positive interval processes no tick at all;
otherwise each elapsed tick (given by its firing time) runs one sweep. -/
def FileCache.vacuumRun (fc : FileCache) (ticks : List Nat) : FileCache :=
  if fc.checkInterval < 1 then fc
  else ticks.foldl (fun s t => s.sweepOnce t) fc

/-- The memory-size invariant of the store: every resident item's content
fits in `maxSize`. -/
def MemInv (fc : FileCache) : Prop :=
  ∀ kv ∈ fc.keyItem, ((kv : String × item).2.content.length : Int) ≤ fc.maxSize

/-! ## Sample states used by witnesses -/

/-- A filesystem holding one small regular file at the path that key `"a"`
resolves to under namespace `"n"` and temp dir `"/tmp"`. -/
def fsWithA : FS := [("/tmp/fc-namespaces/n/a", FsEntry.file [7, 8] 2)]

/-- A fresh cache over an empty filesystem. -/
def sampleFC : FileCache := New "n" "/tmp" [] 16 1000 7

/-- A fresh cache over `fsWithA`. -/
def sampleFCdisk : FileCache := New "n" "/tmp" fsWithA 16 1000 7

/-- A fresh cache whose `checkInterval` is zero. -/
def sampleFC0 : FileCache := New "n" "/tmp" [] 16 1000 0

/-! ## Association-list lemmas -/

theorem lookupAL_insertAL_self {α : Type} (m : List (String × α)) (k : String) (v : α) :
    lookupAL (insertAL m k v) k = some v := by
  induction m with
  | nil => simp [insertAL, lookupAL]
  | cons kv rest ih =>
    obtain ⟨k1, v1⟩ := kv
    by_cases h : k1 = k
    · simp [insertAL, h, lookupAL]
    · simp [insertAL, h, lookupAL, ih]

theorem length_insertAL_absent {α : Type} (m : List (String × α)) (k : String) (v : α)
    (h : lookupAL m k = none) : (insertAL m k v).length = m.length + 1 := by
  induction m with
  | nil => simp [insertAL]
  | cons kv rest ih =>
    obtain ⟨k1, v1⟩ := kv
    by_cases hk : k1 = k
    · simp [lookupAL, hk] at h
    · simp [lookupAL, hk] at h
      simp [insertAL, hk, ih h]

theorem mem_insertAL {α : Type} {m : List (String × α)} {k : String} {v : α}
    {kv : String × α} (h : kv ∈ insertAL m k v) : kv ∈ m ∨ kv = (k, v) := by
  induction m with
  | nil => simp [insertAL] at h; right; exact h
  | cons hd rest ih =>
    obtain ⟨k1, v1⟩ := hd
    by_cases hk : k1 = k
    · simp [insertAL, hk] at h
      rcases h with h | h
      · right; simp [h]
      · left; simp [h]
    · simp [insertAL, hk] at h
      rcases h with h | h
      · left; simp [h]
      · rcases ih h with h2 | h2
        · left; simp [h2]
        · right; exact h2

theorem mem_eraseAL {α : Type} {m : List (String × α)} {k : String}
    {kv : String × α} (h : kv ∈ eraseAL m k) : kv ∈ m := by
  induction m with
  | nil => simp [eraseAL] at h
  | cons hd rest ih =>
    obtain ⟨k1, v1⟩ := hd
    by_cases hk : k1 = k
    · simp [eraseAL, hk] at h
      simp [h]
    · simp [eraseAL, hk] at h
      rcases h with h | h
      · simp [h]
      · simp [ih h]

/-! ## Lemmas about the item-level helpers -/

theorem setCacheItem_ok_content {fs : FS} {path : String} {c : Bytes} {ms : Int}
    {t : Nat} {it : item} {fs1 : FS}
    (h : setCacheItem fs path c ms t = (.ok it, fs1)) :
    it = { content := c, AccesedAt := 0, ModifiedAt := t } := by
  unfold setCacheItem at h
  split at h
  · simp at h
  · split at h
    · simp at h
    · split at h
      · simp at h
      · simp at h
        exact h.1.symm

theorem getCacheItem_ok_size {fs : FS} {path : String} {ms : Int} {it : item}
    (h : getCacheItem fs path ms = .ok it) : (it.content.length : Int) ≤ ms := by
  unfold getCacheItem at h
  split at h
  · simp at h
  · simp at h
  · rename_i c mt heq
    split at h
    · simp at h
    · rename_i hlt
      simp at h
      rw [← h]
      show (c.length : Int) ≤ ms
      omega

theorem goJoin2_empty_left (b : String) : goJoin2 "" b = b := by
  simp [goJoin2]

theorem foldl_access_keeps_content_modified (times : List Nat) (i : item) :
    (times.foldl (fun j s => (j.Access s).2) i).ModifiedAt = i.ModifiedAt ∧
    (times.foldl (fun j s => (j.Access s).2) i).content = i.content := by
  induction times generalizing i with
  | nil => exact ⟨rfl, rfl⟩
  | cons t ts ih => simpa [item.Access] using ih { i with AccesedAt := t }

/-! ## Claim theorems -/

/-- C7: path resolution is a pure function of namespace and key: the resolved
path is `join(system_temp_dir, "fc-namespaces", namespace, key)`, and the
namespace root used by `Destroy` is `join(system_temp_dir, "fc-namespaces",
namespace)`. -/
theorem resolve_path_spec (fc : FileCache) (key : String) :
    fc.keyToPath key = joinPath [fc.tempDir, "fc-namespaces", fc.ns, key] ∧
    fc.getNamespaceDir = joinPath [fc.tempDir, "fc-namespaces", fc.ns] := by
  refine ⟨?_, ?_⟩ <;>
    simp [FileCache.keyToPath, FileCache.getNamespaceDir, joinPath,
      goJoin2_empty_left]

/-- C6: `Access` stamps `AccesedAt = now` and returns the held content,
leaving `ModifiedAt` and `content` unchanged; hence `Duration` — the elapsed
time since the last write — is unaffected by any sequence of reads, and the
`Duration > ttl` expiry test gives the same verdict after any number of
reads as before them. -/
theorem access_does_not_age (i : item) (now t : Nat) (times : List Nat) (ttl : Int) :
    (i.Access now).1 = i.content ∧
    (i.Access now).2.ModifiedAt = i.ModifiedAt ∧
    (i.Access now).2.content = i.content ∧
    (i.Access now).2.AccesedAt = now ∧
    item.Duration (times.foldl (fun j s => (j.Access s).2) i) t = i.Duration t ∧
    (ttl < item.Duration (times.foldl (fun j s => (j.Access s).2) i) t ↔
      ttl < i.Duration t) := by
  have h := foldl_access_keeps_content_modified times i
  refine ⟨rfl, rfl, rfl, rfl, ?_, ?_⟩
  · simp [item.Duration, h.1]
  · simp [item.Duration, h.1]

/-- C9: with a non-positive `checkInterval` the vacuum goroutine returns
before entering its loop, so no tick is ever processed and the background
loop never evicts anything: the state is untouched whatever ticks elapse. -/
theorem nonpositive_interval_never_sweeps (fc : FileCache) (ticks : List Nat)
    (h : fc.checkInterval ≤ 0) : fc.vacuumRun ticks = fc := by
  unfold FileCache.vacuumRun
  rw [if_pos (show fc.checkInterval < 1 by omega)]

theorem nonpositive_interval_never_sweeps_witness :
    sampleFC0.checkInterval ≤ 0 ∧ sampleFC0.vacuumRun [5, 12] = sampleFC0 :=
  ⟨by decide, nonpositive_interval_never_sweeps sampleFC0 [5, 12] (by decide)⟩

/-- C2: a payload longer than `maxSize` makes `Set` fail with `ErrTooLarge`
and leaves the whole state — the in-memory map and the filesystem — exactly
as it was: the size check precedes any I/O or map update. -/
theorem set_too_large_rejected (fc : FileCache) (key : String) (v : Bytes) (now : Nat)
    (h : (v.length : Int) > fc.maxSize) :
    fc.Set key v now = (.error .tooLarge, fc) := by
  unfold FileCache.Set setCacheItem
  rw [if_pos h]

theorem set_too_large_rejected_witness :
    ((List.replicate 17 0 : Bytes).length : Int) > sampleFC.maxSize ∧
    sampleFC.Set "a" (List.replicate 17 0) 3 = (.error .tooLarge, sampleFC) :=
  ⟨by decide, set_too_large_rejected sampleFC "a" (List.replicate 17 0) 3 (by decide)⟩

/-- C1: when `Set(k, v)` succeeds (its payload fits in `maxSize`), an
immediately following `Get(k)` finds the freshly inserted item in the
in-memory map and returns `v` with no error. -/
theorem set_then_get_returns_value (fc : FileCache) (key : String) (v : Bytes)
    (t1 t2 : Nat) (hlen : (v.length : Int) ≤ fc.maxSize)
    (hset : (fc.Set key v t1).1 = .ok ()) :
    ((fc.Set key v t1).2.Get key t2).1 = .ok v := by
  rcases hr : setCacheItem fc.fs (fc.keyToPath key) v fc.maxSize t1 with ⟨r, fs1⟩
  cases r with
  | error e =>
    simp [FileCache.Set, hr] at hset
  | ok it =>
    have hit := setCacheItem_ok_content hr
    simp only [FileCache.Set, hr]
    simp only [FileCache.Get, FileCache.getItem]
    simp [lookupAL_insertAL_self, item.Access, hit]

theorem set_then_get_returns_value_witness :
    (([1, 2] : Bytes).length : Int) ≤ sampleFC.maxSize ∧
    (sampleFC.Set "a" [1, 2] 3).1 = .ok () ∧
    ((sampleFC.Set "a" [1, 2] 3).2.Get "a" 9).1 = .ok [1, 2] :=
  ⟨by decide, by decide,
    set_then_get_returns_value sampleFC "a" [1, 2] 3 9 (by decide) (by decide)⟩

theorem lookupAL_touchAccess (m : List (String × item)) (k : String) (t : Nat) :
    lookupAL (touchAccess m k t) k
      = (lookupAL m k).map (fun it => { it with AccesedAt := t }) := by
  induction m with
  | nil => simp [touchAccess, lookupAL]
  | cons kv rest ih =>
    obtain ⟨k1, v1⟩ := kv
    by_cases h : k1 = k
    · simp [touchAccess, lookupAL, h]
    · simp [touchAccess, lookupAL, h]
      exact ih

theorem setCacheItem_ok_size {fs : FS} {path : String} {c : Bytes} {ms : Int}
    {t : Nat} {it : item} {fs1 : FS}
    (h : setCacheItem fs path c ms t = (.ok it, fs1)) :
    (c.length : Int) ≤ ms := by
  unfold setCacheItem at h
  split at h
  · simp at h
  · omega

/-! ## Invariant-preservation lemmas (claim C4 machinery) -/

theorem memInv_of_entries {fc fc2 : FileCache} (h : MemInv fc)
    (hms : fc2.maxSize = fc.maxSize)
    (hsub : ∀ kv ∈ fc2.keyItem, kv ∈ fc.keyItem) : MemInv fc2 := by
  intro kv hkv
  rw [hms]
  exact h kv (hsub kv hkv)

theorem getItem_preserves (fc : FileCache) (key : String) (h : MemInv fc) :
    MemInv (fc.getItem key).2 ∧ (fc.getItem key).2.maxSize = fc.maxSize := by
  unfold FileCache.getItem
  split
  · exact ⟨h, rfl⟩
  · split
    · exact ⟨h, rfl⟩
    · rename_i heqa it heq
      refine ⟨?_, rfl⟩
      intro kv hkv
      simp only at hkv
      rcases mem_insertAL hkv with hm | hkv2
      · exact h kv hm
      · have hsz := getCacheItem_ok_size heq
        simp [hkv2, hsz]

theorem removeItem_preserves (fc : FileCache) (key : String) (om : Bool)
    (h : MemInv fc) :
    MemInv (fc.removeItem key om) ∧ (fc.removeItem key om).maxSize = fc.maxSize := by
  have h2 := getItem_preserves fc key h
  unfold FileCache.removeItem
  split
  · rename_i heq
    rw [heq] at h2
    exact h2
  · rename_i it fc1 heq
    rw [heq] at h2
    have herase : MemInv { fc1 with keyItem := eraseAL fc1.keyItem key } :=
      memInv_of_entries h2.1 rfl (fun kv hkv => mem_eraseAL hkv)
    split
    · exact ⟨herase, h2.2⟩
    · split
      · exact ⟨fun kv hkv => herase kv hkv, h2.2⟩
      · exact ⟨herase, h2.2⟩

theorem sweepVisit_preserves (snapshot : List (String × item)) (fc : FileCache)
    (now : Nat) (h : MemInv fc) :
    MemInv (sweepVisit now fc snapshot) ∧
      (sweepVisit now fc snapshot).maxSize = fc.maxSize := by
  induction snapshot generalizing fc with
  | nil => exact ⟨h, rfl⟩
  | cons kv tl ih =>
    simp only [sweepVisit]
    split
    · have hr := removeItem_preserves fc kv.1 false h
      have hrec := ih (fc.removeItem kv.1 false) hr.1
      exact ⟨hrec.1, hrec.2.trans hr.2⟩
    · exact ih fc h

theorem sweepOnce_preserves (fc : FileCache) (now : Nat) (h : MemInv fc) :
    MemInv (fc.sweepOnce now) ∧ (fc.sweepOnce now).maxSize = fc.maxSize :=
  sweepVisit_preserves fc.keyItem fc now h

theorem foldl_sweep_preserves (ticks : List Nat) (fc : FileCache) (h : MemInv fc) :
    MemInv (ticks.foldl (fun s t => s.sweepOnce t) fc) := by
  induction ticks generalizing fc with
  | nil => exact h
  | cons t ts ih =>
    simp only [List.foldl_cons]
    exact ih _ (sweepOnce_preserves fc t h).1

theorem mem_touchAccess {m : List (String × item)} {key : String} {now : Nat}
    {kv : String × item} (h : kv ∈ touchAccess m key now) :
    ∃ kv0 ∈ m, kv.2.content = kv0.2.content := by
  induction m with
  | nil => simp [touchAccess] at h
  | cons hd rest ih =>
    obtain ⟨k1, v1⟩ := hd
    by_cases hk : k1 = key
    · simp [touchAccess, hk] at h
      rcases h with h | h
      · exact ⟨(k1, v1), by simp, by simp [h]⟩
      · obtain ⟨kv0, hkv0, hc⟩ := ih h
        exact ⟨kv0, by simp [hkv0], hc⟩
    · simp [touchAccess, hk] at h
      rcases h with h | h
      · exact ⟨(k1, v1), by simp, by simp [h]⟩
      · obtain ⟨kv0, hkv0, hc⟩ := ih h
        exact ⟨kv0, by simp [hkv0], hc⟩

theorem memInv_touchAccess {fc1 : FileCache} (key : String) (now : Nat)
    (h : MemInv fc1) :
    MemInv { fc1 with keyItem := touchAccess fc1.keyItem key now } := by
  intro kv hkv
  simp only at hkv
  obtain ⟨kv0, hkv0, hc⟩ := mem_touchAccess hkv
  simp only
  rw [hc]
  exact h kv0 hkv0

theorem set_preserves (fc : FileCache) (key : String) (v : Bytes) (now : Nat)
    (h : MemInv fc) : MemInv (fc.Set key v now).2 := by
  unfold FileCache.Set
  split
  · exact fun kv hkv => h kv hkv
  · rename_i it fs1 heq
    intro kv hkv
    rcases mem_insertAL hkv with hm | hkv2
    · exact h kv hm
    · have hsz := setCacheItem_ok_size heq
      have hc := setCacheItem_ok_content heq
      rw [hkv2]
      simp [hc]
      exact hsz

theorem get_preserves (fc : FileCache) (key : String) (now : Nat)
    (h : MemInv fc) : MemInv (fc.Get key now).2 := by
  have h2 := getItem_preserves fc key h
  unfold FileCache.Get
  split
  · rename_i heq
    rw [heq] at h2
    exact h2.1
  · rename_i it fc1 heq
    rw [heq] at h2
    exact memInv_touchAccess key now h2.1

theorem exists_preserves (fc : FileCache) (key : String) (h : MemInv fc) :
    MemInv (fc.Exists key).2 := by
  have h2 := getItem_preserves fc key h
  unfold FileCache.Exists
  split <;> rename_i heq <;> rw [heq] at h2 <;> exact h2.1

theorem delete_preserves (fc : FileCache) (key : String) (h : MemInv fc) :
    MemInv (fc.Delete key).2 := by
  unfold FileCache.Delete
  split
  · exact memInv_of_entries h rfl (fun kv hkv => mem_eraseAL hkv)
  · exact memInv_of_entries h rfl (fun kv hkv => mem_eraseAL hkv)

theorem vacuumRun_preserves (fc : FileCache) (ticks : List Nat) (h : MemInv fc) :
    MemInv (fc.vacuumRun ticks) := by
  unfold FileCache.vacuumRun
  split
  · exact h
  · exact foldl_sweep_preserves ticks fc h

/-- C4: every operation of the store preserves the memory-size invariant —
all items resident in the in-memory map have content of length at most
`maxSize` — so no operation (`Set`, `Get`, `Exists`, `Delete`, a vacuum
sweep, or any run of the vacuum loop) ever leaves an over-sized item in
memory. -/
theorem operations_preserve_size_invariant (fc : FileCache) (h : MemInv fc) :
    (∀ key v now, MemInv (fc.Set key v now).2) ∧
    (∀ key now, MemInv (fc.Get key now).2) ∧
    (∀ key, MemInv (fc.Exists key).2) ∧
    (∀ key, MemInv (fc.Delete key).2) ∧
    (∀ now, MemInv (fc.sweepOnce now)) ∧
    (∀ ticks, MemInv (fc.vacuumRun ticks)) :=
  ⟨fun key v now => set_preserves fc key v now h,
   fun key now => get_preserves fc key now h,
   fun key => exists_preserves fc key h,
   fun key => delete_preserves fc key h,
   fun now => (sweepOnce_preserves fc now h).1,
   fun ticks => vacuumRun_preserves fc ticks h⟩

theorem operations_preserve_size_invariant_witness :
    MemInv sampleFC ∧ MemInv ((sampleFC.Set "a" [1, 2] 3).2) :=
  ⟨fun kv hkv => absurd hkv (by simp [sampleFC, New]),
   (operations_preserve_size_invariant sampleFC
      (fun kv hkv => absurd hkv (by simp [sampleFC, New]))).1 "a" [1, 2] 3⟩

/-- C3: for a key not resident in memory, `Get` takes the load-through path
and fails with exactly `NotFound` when the backing file is absent,
`IsDirectory` when the resolved path is a directory, `TooLarge` when the
file's size exceeds `maxSize` (each leaving the state untouched); otherwise
it returns the file's content and inserts an item whose `ModifiedAt` is the
file's modification time (with `AccesedAt` stamped by the read). -/
theorem get_load_through_cases (fc : FileCache) (key : String) (now : Nat)
    (hmiss : lookupAL fc.keyItem key = none) :
    (lookupAL fc.fs (fc.keyToPath key) = none →
      fc.Get key now = (.error .notFound, fc)) ∧
    (lookupAL fc.fs (fc.keyToPath key) = some .dir →
      fc.Get key now = (.error .isDirectory, fc)) ∧
    (∀ c mt, lookupAL fc.fs (fc.keyToPath key) = some (.file c mt) →
      ((c.length : Int) > fc.maxSize →
        fc.Get key now = (.error .tooLarge, fc)) ∧
      ((c.length : Int) ≤ fc.maxSize →
        (fc.Get key now).1 = .ok c ∧
        lookupAL (fc.Get key now).2.keyItem key =
          some { content := c, AccesedAt := now, ModifiedAt := mt })) := by
  refine ⟨?_, ?_, ?_⟩
  · intro h
    simp [FileCache.Get, FileCache.getItem, hmiss, getCacheItem, h]
  · intro h
    simp [FileCache.Get, FileCache.getItem, hmiss, getCacheItem, h]
  · intro c mt h
    constructor
    · intro hgt
      simp [FileCache.Get, FileCache.getItem, hmiss, getCacheItem, h, hgt]
    · intro hle
      have hnot : ¬ ((c.length : Int) > fc.maxSize) := by omega
      simp [FileCache.Get, FileCache.getItem, hmiss, getCacheItem, h, hnot,
        item.Access, lookupAL_touchAccess, lookupAL_insertAL_self]

theorem get_load_through_cases_witness :
    lookupAL sampleFCdisk.keyItem "a" = none ∧
    (([7, 8] : Bytes).length : Int) ≤ sampleFCdisk.maxSize ∧
    (sampleFCdisk.Get "a" 9).1 = .ok [7, 8] ∧
    lookupAL (sampleFCdisk.Get "a" 9).2.keyItem "a" =
      some { content := [7, 8], AccesedAt := 9, ModifiedAt := 2 } :=
  ⟨rfl, by decide,
    ((get_load_through_cases sampleFCdisk "a" 9 rfl).2.2 [7, 8] 2 rfl).2 (by decide)⟩

/-- C10: for a key not resident in memory, an `Exists` call that returns
`true` went through the load-through path of `getItem` and inserted the
loaded item: the in-memory map afterwards holds the key and `SizeInMemory`
grew by one — `Exists` is not a read-only query. -/
theorem exists_loads_into_memory (fc : FileCache) (key : String)
    (hmiss : lookupAL fc.keyItem key = none)
    (hTrue : (fc.Exists key).1 = true) :
    (fc.Exists key).2.SizeInMemory = fc.SizeInMemory + 1 ∧
    (lookupAL (fc.Exists key).2.keyItem key).isSome = true := by
  rcases hg : getCacheItem fc.fs (fc.keyToPath key) fc.maxSize with e | it
  · simp [FileCache.Exists, FileCache.getItem, hmiss, hg] at hTrue
  · simp [FileCache.Exists, FileCache.getItem, hmiss, hg, FileCache.SizeInMemory,
      length_insertAL_absent fc.keyItem key it hmiss, lookupAL_insertAL_self]

theorem exists_loads_into_memory_witness :
    lookupAL sampleFCdisk.keyItem "a" = none ∧
    (sampleFCdisk.Exists "a").1 = true ∧
    (sampleFCdisk.Exists "a").2.SizeInMemory = sampleFCdisk.SizeInMemory + 1 :=
  ⟨rfl, by decide,
    (exists_loads_into_memory sampleFCdisk "a" rfl (by decide)).1⟩

/-- C5 (counterevidence): the first `Shutdown` on a fresh cache succeeds, but
a second `Shutdown` on the resulting state reaches `close(fc.pipe)` with the
channel already closed and panics — calling `Shutdown` twice does crash. -/
theorem shutdown_twice_panics :
    sampleFC.Shutdown.isOk = true ∧
    sampleFC.Shutdown.bind FileCache.Shutdown
      = Except.error GoPanic.closeOfClosedChannel :=
  ⟨rfl, rfl⟩

/-! ## Lock-discipline trace of the vacuum sweep (claim C8)

The sweep body in `vacuum` is

```
for key, item := range fc.keyItem {
    if item.Duration() > fc.ttl {
        fc.removeItem(key, false)
    }
}
```

with no `fc.mu.Lock()` around the loop; the only lock acquisitions happen
inside `removeItem` (its `getItem` call locks, reads the map, unlocks; then
`removeItem` locks again, deletes the map entry, unlocks). We record the
sequence of lock and map events this code performs and check whether every
map access happens with the store lock held. -/

/-- Primitive events: acquire `fc.mu`, release `fc.mu`, access `fc.keyItem`. -/
inductive LockEv where
  | acq
  | rel
  | mapOp
deriving DecidableEq

/-- `getItem` on a resident key: `fc.mu.Lock()`, the map read, the deferred
`fc.mu.Unlock()`. -/
def getItemHitEvs : List LockEv := [.acq, .mapOp, .rel]

/-- `removeItem` on a resident key: the `getItem` call, then `fc.mu.Lock()`,
`delete(fc.keyItem, key)`, `fc.mu.Unlock()` (the file removal touches neither
the lock nor the map). -/
def removeItemFoundEvs : List LockEv :=
  getItemHitEvs ++ [.acq, .mapOp, .rel]

/-- One vacuum tick over the resident entries, each flagged with whether its
`Duration() > ttl` test fires: the `range` statement itself reads `fc.keyItem`
once per entry — outside any lock — and each expired entry triggers
`removeItem`. -/
def vacuumTickEvs (expired : List Bool) : List LockEv :=
  expired.foldl
    (fun acc e => acc ++ [LockEv.mapOp] ++ (if e then removeItemFoundEvs else []))
    []

/-- Whether every map access in the trace happens while `fc.mu` is held,
starting from the given lock state. The claim that the sweeper holds the
store-wide lock for the whole scan-and-evict pass entails this with the lock
initially free. -/
def mapOpsLocked : List LockEv → Bool → Bool
  | [], _ => true
  | .acq :: rest, _ => mapOpsLocked rest true
  | .rel :: rest, _ => mapOpsLocked rest false
  | .mapOp :: rest, held => held && mapOpsLocked rest held

/-- C8 (counterevidence): already on a map with a single expired entry, the
sweep's `range` read of `fc.keyItem` happens without the store lock, so the
sweeper does not hold the lock for the scan-and-evict pass. -/
theorem vacuum_iterates_map_unlocked :
    mapOpsLocked (vacuumTickEvs [true]) false = false := by decide
